import Mathlib

/-
Verification of the grokker knowledge-base engine core.

Shallow embedding of the Go sources:
  * grokker.go  (chunking, embedding batching, similarity ranking,
    context assembly, document synchronization, GC, load, model upgrade)
  * v3/util.go  (guarded cosine similarity)

Go strings are byte slices; document contents and chunk texts are modelled
as `List Char` (one `Char` per byte; all concrete inputs are ASCII so
byte length and char length agree).  Strings that are only ever compared
for equality (paths, versions, model names) are modelled as `String`.
Embedding vectors produced by the provider are opaque to the engine, so
the provider is modelled as a total oracle `f : List Char → E` for an
arbitrary type `E`; the engine never inspects embedding values except in
the similarity functions, which are modelled over `Float` (Go float64).
`Option` results model functions that can abort: `none` stands for a
goadapt `Assert`/`Ck` panic or, for the chunker, for an infinite loop.
-/

namespace Grokker

/-- Sum of the lengths of a list of texts (Go: accumulating `totalLen`). -/
def sumLen (ts : List (List Char)) : Nat := (ts.map List.length).sum

/-! ### Chunker (grokker.go, func (g *Grokker) chunks)

Go splits the text on "\n\n" (strings.Split) into paragraphs, then for
each paragraph runs

    for len(paragraph) > 0 {
      if len(paragraph) >= maxLen {
        split := maxLen - 1
        c = append(c, paragraph[:split])
        paragraph = paragraph[split:]
      } else {
        c = append(c, paragraph)
        paragraph = ""
      }
    }
-/

/-- `strings.Split(txt, "\n\n")`: split on each leftmost non-overlapping
occurrence of the two-byte separator.  Empty input yields `[[]]`, as in Go. -/
def splitOnNN : List Char → List (List Char)
  | [] => [[]]
  | '\n' :: '\n' :: rest => [] :: splitOnNN rest
  | c :: rest =>
    match splitOnNN rest with
    | [] => [[c]]
    | h :: t => (c :: h) :: t

/-- One iteration of the Go paragraph-splitting loop body, for a paragraph
that has already passed the `len(paragraph) > 0` loop test: returns the
chunks appended by this iteration and the remaining paragraph. -/
def chunkLoopStep (maxLen : Nat) (p : List Char) : List (List Char) × List Char :=
  if maxLen ≤ p.length then ([p.take (maxLen - 1)], p.drop (maxLen - 1))
  else ([p], [])

/-- The Go paragraph loop, run with explicit fuel.  `none` means the fuel
ran out while the paragraph was still non-empty, i.e. the Go loop is still
running; with `maxLen ≤ 1` and a non-empty paragraph the Go loop never
terminates, and correspondingly no fuel is ever enough.
(With `maxLen = 0` the Go code instead panics on `paragraph[:-1]`; that
case also yields `none` here and is outside every claim.) -/
def splitParaFuel (maxLen : Nat) : Nat → List Char → Option (List (List Char))
  | 0, p => if p = [] then some [] else none
  | fuel + 1, p =>
    if p = [] then some []
    else
      let s := chunkLoopStep maxLen p
      (splitParaFuel maxLen fuel s.2).map (fun rest => s.1 ++ rest)

/-- Process the paragraphs in order, appending all produced chunks into the
single output slice `c`, as the Go loop does. -/
def chunksGoAux (maxLen : Nat) : List (List Char) → Option (List (List Char))
  | [] => some []
  | p :: ps => do
    let l ← splitParaFuel maxLen p.length p
    let r ← chunksGoAux maxLen ps
    pure (l ++ r)

/-- `(g *Grokker) chunks(txt, maxLen)`.  Each paragraph gets fuel equal to
its own length, which suffices whenever `2 ≤ maxLen` (each iteration
removes `maxLen - 1 ≥ 1` bytes). -/
def chunksGo (maxLen : Nat) (txt : List Char) : Option (List (List Char)) :=
  chunksGoAux maxLen (splitOnNN txt)

/-! ### Similarity (v3/util.go similarity, grokker.go Similarity) -/

/-- Accumulate `(dot, magA, magB)` pairwise; Go v3 iterates `i` over
`range a` after the length guard has ensured `len(a) == len(b)`.
(Accumulation order differs from Go's index order; the arithmetic branch
is never evaluated in the theorems below, only the guard is.) -/
def simAccV3 : List Float → List Float → Float × Float × Float
  | x :: a, y :: b =>
    let t := simAccV3 a b
    (t.1 + x * y, t.2.1 + x * x, t.2.2 + y * y)
  | _, _ => (0, 0, 0)

/-- v3/util.go `similarity`: returns 0 when the lengths differ, otherwise
`dot / (sqrt(magA) * sqrt(magB))`. -/
def similarityV3 (a b : List Float) : Float :=
  if a.length ≠ b.length then 0
  else
    let t := simAccV3 a b
    t.1 / (Float.sqrt t.2.1 * Float.sqrt t.2.2)

/-- grokker.go `Similarity` has no length guard: it iterates `i` over
`range a` and reads `b[i]`, so `len(a) > len(b)` is an out-of-range panic,
modelled as `none`; when `len(a) < len(b)` the extra entries of `b` are
silently ignored. -/
def simAccGo : List Float → List Float → Option (Float × Float × Float)
  | [], _ => some (0, 0, 0)
  | _ :: _, [] => none
  | x :: a, y :: b =>
    (simAccGo a b).map (fun t => (t.1 + x * y, t.2.1 + x * x, t.2.2 + y * y))

/-- grokker.go `Similarity(a, b)` (used by `SimilarChunks` for ranking). -/
def SimilarityGo (a b : List Float) : Option Float :=
  (simAccGo a b).map (fun t => t.1 / (Float.sqrt t.2.1 * Float.sqrt t.2.2))

/-! ### Embedding batcher (grokker.go, func (g *Grokker) CreateEmbeddings)

The Go inner loop scans texts from index `i`, maintaining `totalLen`:

    nextLen := len(texts[j])
    Assert(nextLen > 0)
    Assert(nextLen <= g.maxEmbeddingChunkLen)
    if totalLen+nextLen >= g.maxEmbeddingChunkLen { j--; break }
    totalLen += nextLen
    if j == len(texts)-1 { break }
    j++

followed by `Assert(j >= i)` and a double-check pass over the batch.
-/

/-- The inner scanning loop: returns the number of texts taken from the
front of the suffix for the current batch; `none` models a failed
`Assert(nextLen > 0)` or `Assert(nextLen <= limit)`.  A result of `0`
corresponds to `j` ending at `i - 1`, which the caller turns into the
failed `Assert(j >= i)`. -/
def takeBatch (L : Nat) : Nat → List (List Char) → Option Nat
  | _, [] => some 0
  | total, t :: rest =>
    if t.length = 0 then none
    else if L < t.length then none
    else if L ≤ total + t.length then some 0
    else
      match rest with
      | [] => some 1
      | _ :: _ => (takeBatch L (total + t.length) rest).map (fun k => k + 1)

/-- The outer loop of `CreateEmbeddings`, recorded as the list of provider
requests (batches) it issues, in order.  `none` models any failed assert:
the per-item asserts inside the scan, the `Assert(j >= i)` after it, or
the double-check pass (`Assert(len(text) <= limit)`, `Assert(totalLen <=
limit)`) over the formed batch.  The recursion is driven by explicit fuel
so that it is structural; every iteration consumes at least one text, so
fuel equal to the number of texts (as supplied by `createEmbBatches`)
always suffices and the out-of-fuel branch is unreachable. -/
def createEmbBatchesF (L : Nat) : Nat → List (List Char) → Option (List (List (List Char)))
  | _, [] => some []
  | 0, _ :: _ => none
  | fuel + 1, t :: rest =>
    match takeBatch L 0 (t :: rest) with
    | none => none
    | some 0 => none
    | some (k + 1) =>
      let inputs := (t :: rest).take (k + 1)
      if (∀ x ∈ inputs, x.length ≤ L) ∧ sumLen inputs ≤ L then
        (createEmbBatchesF L fuel ((t :: rest).drop (k + 1))).map (fun bs => inputs :: bs)
      else none

/-- The batches issued by `CreateEmbeddings(texts)`, in order. -/
def createEmbBatches (L : Nat) (ts : List (List Char)) : Option (List (List (List Char))) :=
  createEmbBatchesF L ts.length ts

/-- `(g *Grokker) CreateEmbeddings(texts)`: issue the batches in order and
concatenate the returned embeddings (the provider is the oracle `f`,
returning one embedding per input in input order, per the §6 contract).
`texts = []` yields `[]` without any request, as in Go. -/
def CreateEmbeddings {E : Type} (f : List Char → E) (L : Nat)
    (texts : List (List Char)) : Option (List E) :=
  (createEmbBatches L texts).map (fun bs => (bs.map (fun b => b.map f)).flatten)

/-- A contiguous partition of `ts` into provider requests that the §4.2
contract accepts: non-empty batches, in order, each with total length
strictly below the limit. -/
def ValidPartition (L : Nat) (ts : List (List Char)) (parts : List (List (List Char))) : Prop :=
  parts.flatten = ts ∧ ∀ p ∈ parts, p ≠ [] ∧ sumLen p < L

/-! ### Synchronizer (grokker.go, func (g *Grokker) UpdateDocument) -/

/-- A chunk record: back-reference to its document by relative path, the
chunk text, and its embedding (grokker.go `type Chunk`; the deprecated
`Document.Path` field plays no role here). -/
structure Chunk (E : Type) where
  docPath : String
  text : List Char
  emb : E
deriving DecidableEq

/-- Remove the first chunk in the pool whose `Text` equals `s` (Go finds
the first matching `oldChunk` and splices it out of `oldChunks`);
`none` when no chunk matches. -/
def removeFirstChunk {E : Type} (s : List Char) : List (Chunk E) → Option (List (Chunk E))
  | [] => none
  | c :: rest =>
    if c.text = s then some rest
    else (removeFirstChunk s rest).map (fun r => c :: r)

/-- The matching pass of `UpdateDocument`: for each produced chunk string,
consume the first stored chunk with identical text, else queue the string
as new.  Returns the remaining pool and `newChunkStrings` in order. -/
def matchChunks {E : Type} : List (List Char) → List (Chunk E) → List (Chunk E) × List (List Char)
  | [], pool => (pool, [])
  | s :: rest, pool =>
    match removeFirstChunk s pool with
    | some pool' => matchChunks rest pool'
    | none =>
      let r := matchChunks rest pool
      (r.1, s :: r.2)

/-- `(g *Grokker) UpdateDocument(doc)`: chunk the document content, diff by
exact text equality against the chunks stored for this document, embed the
new strings, and append the new chunks.  Returns `(updated, newChunkList)`
where `updated` is true iff at least one chunk string had no match.
Both the chunker and the batcher use `g.maxEmbeddingChunkLen`, here `L`.
`none` models a panic in the chunking loop or in `CreateEmbeddings`;
orphaned old chunks are left in place for GC, as in Go. -/
def updateDocument {E : Type} (f : List Char → E) (L : Nat) (docPath : String)
    (content : List Char) (chunks : List (Chunk E)) : Option (Bool × List (Chunk E)) :=
  match chunksGo L content with
  | none => none
  | some strings =>
    let pool := chunks.filter (fun c => c.docPath = docPath)
    let ns := (matchChunks strings pool).2
    match CreateEmbeddings f L ns with
    | none => none
    | some embs =>
      let newChunks := List.zipWith (fun t e => Chunk.mk docPath t e) ns embs
      some (!ns.isEmpty, chunks ++ newChunks)

/-! ### Knowledge base: GC, ForgetDocument, Load, UpgradeModel -/

/-- The inner loop of `GC`: a chunk is referenced iff some tracked document
has the chunk's relative path. -/
def referencedBy {E : Type} (docs : List String) (c : Chunk E) : Bool :=
  docs.any (fun d => d = c.docPath)

/-- `(g *Grokker) GC()`: keep exactly the chunks referenced by a tracked
document (Go rebuilds `newChunks` by appending every referenced chunk in
order). -/
def gcChunks {E : Type} (docs : List String) (chunks : List (Chunk E)) : List (Chunk E) :=
  chunks.filter (referencedBy docs)

/-- `(g *Grokker) ForgetDocument(path)`: remove at most the first document
matching the given path from the document list.  (Go also matches by
resolved absolute path; callers here supply the root-relative form, so the
match is plain path equality.)  Chunks are not touched. -/
def forgetDocument : List String → String → List String
  | [], _ => []
  | d :: rest, p => if d = p then rest else d :: forgetDocument rest p

/-- The running schema version (grokker.go `const version = "1.0.0"`). -/
def currentVersion : String := "1.0.0"

/-- Outcome of `Load`: either a usable database (with the version the
snapshot is considered to have), or the fatal user-facing path that prints
the mismatch message and calls `os.Exit(1)`. -/
inductive LoadResult where
  | ok (version : String)
  | fatalExit (loadedVersion : String)
deriving DecidableEq

/-- `Load(r, grokpath, migrate)`, version logic: an empty stored version
tag is replaced by "0.1.0"; if migration was requested the db is returned
as-is; otherwise a version different from the running version prints a
user-facing message and exits.  (Reading, JSON decoding, and client/model
initialization are I/O plumbing outside the claims.) -/
def load (storedVersion : String) (migrate : Bool) : LoadResult :=
  let v := if storedVersion = "" then "0.1.0" else storedVersion
  if migrate then .ok v
  else if v ≠ currentVersion then .fatalExit v
  else .ok v

/-- The model registry (grokker.go `NewModels`): name ↦ token limit. -/
def tokenLimitOf : String → Option Nat
  | "gpt-3.5-turbo" => some 4096
  | "gpt-4" => some 8192
  | "gpt-4-32k" => some 32768
  | _ => none

/-- `(models *Models) findModel(model)`: empty name falls back to
`DefaultModel` ("gpt-3.5-turbo"); unknown names are an error (`none`). -/
def findModel (model : String) : Option (String × Nat) :=
  let m := if model = "" then "gpt-3.5-turbo" else model
  (tokenLimitOf m).map (fun tl => (m, tl))

/-- Derived length limit: Go computes `int(math.Floor(float64(tokenLimit) *
3.1))`.  float64(3.1) is slightly above 3.1, but for every token limit in
the registry (powers of two up to 32768, and 8192 for embeddings) the
product's floor equals `tokenLimit * 31 / 10`, which is how it is modelled
here. -/
def derivedMaxChunkLen (tokenLimit : Nat) : Nat := tokenLimit * 31 / 10

/-- The model-dependent part of the Grokker state: active model name and
the derived length limits set by `initModel`. -/
structure GState where
  model : String
  maxChunkLen : Nat
  maxEmbeddingChunkLen : Nat
deriving DecidableEq

/-- The state `initModel(name)` produces for a registered model of token
limit `tl` (the embedding limit is hardcoded to the 8192-token ada-002
model). -/
def initModelState (name : String) (tl : Nat) : GState :=
  { model := name
    maxChunkLen := derivedMaxChunkLen tl
    maxEmbeddingChunkLen := derivedMaxChunkLen 8192 }

/-- `(g *Grokker) UpgradeModel(model)`: look up the requested and current
models; refuse (returning an explicit error and leaving the state
untouched) when the new token limit is smaller; otherwise re-run
`initModel`, re-deriving the length limits.  The pair is (resulting state,
error). -/
def upgradeModel (s : GState) (model : String) : GState × Option String :=
  match findModel model with
  | none => (s, some "model not found")
  | some (name, tl) =>
    match findModel s.model with
    | none => (s, some "model not found")
    | some (_, oldTl) =>
      if tl < oldTl then (s, some "cannot downgrade model")
      else (initModelState name tl, none)

/-! ### Context assembler (grokker.go, func (g *Grokker) Answer)

    maxSize := int(float64(g.maxChunkLen)*0.5) - len(question)
    var context string
    for _, chunk := range chunks {
      context += Spf("%s:\n\n%s\n\n", chunk.Document.RelPath, chunk.Text)
      if len(context)+len(promptTmpl) > maxSize { break }
    }
-/

/-- grokker.go `promptTmpl` (the braces are byte-escaped). -/
def promptTmpl : String :=
  "\x7b\x7b.Question\x7d\x7d\n\nContext:\n\x7b\x7b.Context\x7d\x7d"

/-- One labeled context block: `"<relPath>:\n\n<chunkText>\n\n"`. -/
def blockOf (c : List Char × List Char) : List Char :=
  c.1 ++ [':', '\n', '\n'] ++ c.2 ++ ['\n', '\n']

/-- The context-building loop of `Answer`: append the whole block for the
next ranked chunk, then break once the accumulated length (plus the length
of `promptTmpl`) exceeds `maxSize`. -/
def answerContextLoop (maxSize : Int) (acc : List Char) :
    List (List Char × List Char) → List Char
  | [] => acc
  | c :: rest =>
    let acc2 := acc ++ blockOf c
    if (acc2.length + promptTmpl.length : Int) > maxSize then acc2
    else answerContextLoop maxSize acc2 rest

/-- The context assembled by `Answer` for ranked `chunks` (pairs of
relative path and chunk text): `maxSize` is half the model length limit
minus the question length (`int(float64(maxChunkLen)*0.5)` is exactly
`maxChunkLen / 2` for every representable value since halving is exact in
float64), and may be negative, hence `Int`. -/
def answerContext (maxChunkLen : Nat) (question : List Char)
    (chunks : List (List Char × List Char)) : List Char :=
  answerContextLoop ((maxChunkLen / 2 : Nat) - (question.length : Int)) [] chunks

/-- A concrete embedding provider oracle used by the concrete evaluations
below: the embedding of a text is its length. -/
def exF (t : List Char) : Nat := t.length

/-! ## Lemmas -/

/-- Texts for which the batcher's per-item asserts cannot fire and which
never fill a batch on their own: non-empty and strictly below the limit. -/
def PerItemOk (L : Nat) (ts : List (List Char)) : Prop :=
  ∀ t ∈ ts, 0 < t.length ∧ t.length < L

/-- Occurrence count of `a` in a list (multiset view of chunk texts). -/
def cnt {α : Type} [DecidableEq α] (a : α) : List α → Nat
  | [] => 0
  | b :: l => (if b = a then 1 else 0) + cnt a l

theorem sumLen_nil : sumLen [] = 0 := rfl

theorem sumLen_cons (t : List Char) (ts : List (List Char)) :
    sumLen (t :: ts) = t.length + sumLen ts := by
  simp [sumLen]

theorem sumLen_append (a b : List (List Char)) :
    sumLen (a ++ b) = sumLen a + sumLen b := by
  simp [sumLen]

/-- Every member of a flattened list of lists occurs as a contiguous slice
of the flattening. -/
theorem slice_of_mem_flatten {α : Type} {c : List α} {l : List (List α)} (h : c ∈ l) :
    ∃ pre post, pre ++ c ++ post = l.flatten := by
  induction h with
  | head as => exact ⟨[], as.flatten, by simp⟩
  | tail b _ ih =>
    obtain ⟨pre, post, e⟩ := ih
    exact ⟨b ++ pre, post, by simp [← e]⟩

theorem splitParaFuel_nil (maxLen fuel : Nat) : splitParaFuel maxLen fuel [] = some [] := by
  cases fuel <;> simp [splitParaFuel]

/-- With `2 ≤ maxLen`, fuel equal to the paragraph length suffices, and the
Go paragraph loop hard-splits the paragraph into non-empty chunks of
length at most `maxLen - 1` whose concatenation is the paragraph; every
chunk except possibly the last has length exactly `maxLen - 1`. -/
theorem splitParaFuel_spec (maxLen : Nat) (h2 : 2 ≤ maxLen) :
    ∀ fuel p, p.length ≤ fuel →
    ∃ l, splitParaFuel maxLen fuel p = some l ∧ l.flatten = p ∧
      (∀ c ∈ l, c ≠ [] ∧ c.length ≤ maxLen - 1) ∧
      ∀ i, ∀ h : i + 1 < l.length,
        (l.get ⟨i, Nat.lt_of_succ_lt h⟩).length = maxLen - 1 := by
  intro fuel
  induction fuel with
  | zero =>
    intro p hp
    have hpe : p = [] := List.eq_nil_of_length_eq_zero (Nat.le_zero.mp hp)
    subst hpe
    exact ⟨[], by simp [splitParaFuel], rfl, by simp, by simp⟩
  | succ fuel ih =>
    intro p hp
    by_cases hpe : p = []
    · subst hpe
      exact ⟨[], by simp [splitParaFuel], rfl, by simp, by simp⟩
    · by_cases hml : maxLen ≤ p.length
      · have hdrop : (p.drop (maxLen - 1)).length ≤ fuel := by
          simp only [List.length_drop]
          omega
        obtain ⟨l', e', hfl, hprops, hidx⟩ := ih (p.drop (maxLen - 1)) hdrop
        have htl : (p.take (maxLen - 1)).length = maxLen - 1 := by
          simp [List.length_take]
          omega
        refine ⟨p.take (maxLen - 1) :: l', ?_, ?_, ?_, ?_⟩
        · simp [splitParaFuel, hpe, chunkLoopStep, hml, e']
        · simp [hfl]
        · intro c hc
          rcases List.mem_cons.mp hc with hc | hc
          · subst hc
            constructor
            · intro hnil
              rw [hnil] at htl
              simp at htl
              omega
            · omega
          · exact hprops c hc
        · intro i hi
          match i with
          | 0 => simpa using htl
          | i + 1 =>
            have hi' : i + 1 < l'.length := by
              simpa using Nat.lt_of_succ_lt_succ hi
            simpa using hidx i hi'
      · refine ⟨[p], ?_, by simp, ?_, ?_⟩
        · simp [splitParaFuel, hpe, chunkLoopStep, hml, splitParaFuel_nil]
        · intro c hc
          rcases List.mem_cons.mp hc with hc | hc
          · subst hc
            exact ⟨hpe, by omega⟩
          · cases hc
        · intro i hi
          simp at hi

/-- `chunksGoAux` over any paragraph list succeeds when `2 ≤ maxLen`, and
every produced chunk is a non-empty slice of one of the paragraphs of
length at most `maxLen - 1`. -/
theorem chunksGoAux_spec (maxLen : Nat) (h2 : 2 ≤ maxLen) :
    ∀ ps, ∃ out, chunksGoAux maxLen ps = some out ∧
      ∀ c ∈ out, (c ≠ [] ∧ c.length ≤ maxLen - 1) ∧
        ∃ p, p ∈ ps ∧ ∃ pre post, pre ++ c ++ post = p := by
  intro ps
  induction ps with
  | nil => exact ⟨[], rfl, by simp⟩
  | cons p ps ih =>
    obtain ⟨l, el, hfl, hprops, _⟩ := splitParaFuel_spec maxLen h2 p.length p le_rfl
    obtain ⟨out, eo, ho⟩ := ih
    refine ⟨l ++ out, ?_, ?_⟩
    · simp [chunksGoAux, el, eo]
    · intro c hc
      rcases List.mem_append.mp hc with hcl | hco
      · refine ⟨hprops c hcl, p, by simp, ?_⟩
        rw [← hfl]
        exact slice_of_mem_flatten hcl
      · obtain ⟨hlen, q, hq, hsl⟩ := ho c hco
        exact ⟨hlen, q, List.mem_cons_of_mem p hq, hsl⟩

/-- `chunks(txt, maxLen)` succeeds for `2 ≤ maxLen`; every piece is
non-empty, of length at most `maxLen - 1`, and is a contiguous slice of a
single paragraph (so no paragraph boundary spans two pieces). -/
theorem chunksGo_spec (maxLen : Nat) (txt : List Char) (h2 : 2 ≤ maxLen) :
    ∃ pieces, chunksGo maxLen txt = some pieces ∧
      ∀ c ∈ pieces, (c ≠ [] ∧ c.length ≤ maxLen - 1) ∧
        ∃ p, p ∈ splitOnNN txt ∧ ∃ pre post, pre ++ c ++ post = p :=
  chunksGoAux_spec maxLen h2 (splitOnNN txt)

/-- The scan takes no more texts than remain. -/
theorem takeBatch_le_length (L : Nat) :
    ∀ ts total k, takeBatch L total ts = some k → k ≤ ts.length := by
  intro ts
  induction ts with
  | nil =>
    intro total k h
    simp [takeBatch] at h
    omega
  | cons t rest ih =>
    intro total k h
    simp only [takeBatch] at h
    split_ifs at h with h0 hL hstop
    · simp at h
      omega
    · cases rest with
      | nil =>
        simp at h
        simp [← h]
      | cons r rs =>
        rcases Option.map_eq_some'.mp h with ⟨k', e', hk⟩
        have := ih (total + t.length) k' e'
        simp at this ⊢
        omega

/-- Every text the scan packs into the batch passed both per-item asserts:
it is non-empty and within the per-item limit. -/
theorem takeBatch_items (L : Nat) :
    ∀ ts total k, takeBatch L total ts = some k →
      ∀ t ∈ ts.take k, t ≠ [] ∧ t.length ≤ L := by
  intro ts
  induction ts with
  | nil =>
    intro total k h t ht
    simp at ht
  | cons t rest ih =>
    intro total k h x hx
    simp only [takeBatch] at h
    split_ifs at h with h0 hL hstop
    · simp at h
      subst h
      simp at hx
    · cases rest with
      | nil =>
        simp at h
        subst h
        simp at hx
        subst hx
        exact ⟨fun e => h0 (by simp [e]), by omega⟩
      | cons r rs =>
        rcases Option.map_eq_some'.mp h with ⟨k', e', hk⟩
        subst hk
        rcases List.mem_cons.mp (by simpa using hx) with hx1 | hx2
        · subst hx1
          exact ⟨fun e => h0 (by simp [e]), by omega⟩
        · exact ih (total + t.length) k' e' x hx2

/-- The running total stays strictly below the limit: a non-empty batch's
texts sum (plus the incoming total) to strictly less than the limit. -/
theorem takeBatch_sum (L : Nat) :
    ∀ ts total k, takeBatch L total ts = some (k + 1) →
      total + sumLen (ts.take (k + 1)) < L := by
  intro ts
  induction ts with
  | nil =>
    intro total k h
    simp [takeBatch] at h
  | cons t rest ih =>
    intro total k h
    simp only [takeBatch] at h
    split_ifs at h with h0 hL hstop
    · simp at h
    · cases rest with
      | nil =>
        simp at h
        subst h
        simp [sumLen_cons, sumLen_nil]
        omega
      | cons r rs =>
        rcases Option.map_eq_some'.mp h with ⟨k', e', hk⟩
        have hk2 : k' = k := by omega
        rw [hk2] at e'
        cases k with
        | zero =>
          simp [List.take_succ_cons, sumLen_cons, sumLen_nil]
          omega
        | succ k2 =>
          have := ih (total + t.length) k2 e'
          simp only [List.take_succ_cons, sumLen_cons] at this ⊢
          omega

/-- Under the per-item precondition the scan never fires an assert. -/
theorem takeBatch_some (L : Nat) :
    ∀ ts total, PerItemOk L ts → ∃ k, takeBatch L total ts = some k := by
  intro ts
  induction ts with
  | nil => exact fun total _ => ⟨0, rfl⟩
  | cons t rest ih =>
    intro total hok
    obtain ⟨hpos, hlt⟩ := hok t (by simp)
    by_cases hstop : L ≤ total + t.length
    · refine ⟨0, ?_⟩
      simp only [takeBatch]
      rw [if_neg (by omega), if_neg (by omega), if_pos hstop]
    · cases rest with
      | nil =>
        refine ⟨1, ?_⟩
        simp only [takeBatch]
        rw [if_neg (by omega), if_neg (by omega), if_neg hstop]
      | cons r rs =>
        obtain ⟨k', e'⟩ := ih (total + t.length) (fun x hx => hok x (List.mem_cons_of_mem t hx))
        refine ⟨k' + 1, ?_⟩
        simp only [takeBatch]
        rw [if_neg (by omega), if_neg (by omega), if_neg hstop]
        show Option.map (fun k => k + 1) (takeBatch L (total + t.length) (r :: rs)) = some (k' + 1)
        rw [e']
        rfl

/-- Greedy maximality: the scan stops only at the end of the input or
because the next text would meet or exceed the limit. -/
theorem takeBatch_max (L : Nat) :
    ∀ ts total k, PerItemOk L ts → takeBatch L total ts = some k →
      k = ts.length ∨ L ≤ total + sumLen (ts.take (k + 1)) := by
  intro ts
  induction ts with
  | nil =>
    intro total k _ h
    simp [takeBatch] at h
    left
    rw [List.length_nil]
    omega
  | cons t rest ih =>
    intro total k hok h
    simp only [takeBatch] at h
    split_ifs at h with h0 hL hstop
    · simp at h
      subst h
      right
      simp [List.take_succ_cons, sumLen_cons, sumLen_nil]
      omega
    · cases rest with
      | nil =>
        simp at h
        subst h
        left
        rfl
      | cons r rs =>
        rcases Option.map_eq_some'.mp h with ⟨k', e', hk⟩
        subst hk
        rcases ih (total + t.length) k' (fun x hx => hok x (List.mem_cons_of_mem t hx)) e' with hend | hover
        · left
          simp [hend]
        · right
          simp only [List.take_succ_cons, sumLen_cons] at hover ⊢
          omega

/-- With a fresh batch (running total 0) the scan always packs at least
the first text, under the per-item precondition. -/
theorem takeBatch_first (L : Nat) (ts : List (List Char)) (hne : ts ≠ [])
    (hok : PerItemOk L ts) :
    ∀ k, takeBatch L 0 ts = some k → 1 ≤ k := by
  intro k h
  cases ts with
  | nil => exact absurd rfl hne
  | cons t rest =>
    obtain ⟨hpos, hlt⟩ := hok t (by simp)
    simp only [takeBatch] at h
    rw [if_neg (by omega), if_neg (by omega), if_neg (by omega)] at h
    cases rest with
    | nil =>
      simp at h
      omega
    | cons r rs =>
      rcases Option.map_eq_some'.mp h with ⟨k', _, hk⟩
      omega

/-- Whenever the outer loop completes, the issued batches concatenate back
to exactly the input texts (in order). -/
theorem createEmbBatchesF_flatten (L : Nat) :
    ∀ fuel ts bs, createEmbBatchesF L fuel ts = some bs → bs.flatten = ts := by
  intro fuel
  induction fuel with
  | zero =>
    intro ts bs h
    cases ts with
    | nil =>
      simp [createEmbBatchesF] at h
      simp [h]
    | cons t rest => simp [createEmbBatchesF] at h
  | succ fuel ih =>
    intro ts bs h
    cases ts with
    | nil =>
      simp [createEmbBatchesF] at h
      simp [h]
    | cons t rest =>
      simp only [createEmbBatchesF] at h
      rcases htb : takeBatch L 0 (t :: rest) with _ | g
      · simp [htb] at h
      · cases g with
        | zero => simp [htb] at h
        | succ k =>
          simp only [htb] at h
          by_cases hc : (∀ x ∈ (t :: rest).take (k + 1), x.length ≤ L) ∧
              sumLen ((t :: rest).take (k + 1)) ≤ L
          · rw [if_pos hc] at h
            rcases Option.map_eq_some'.mp h with ⟨bs', e', hbs⟩
            subst hbs
            rw [List.flatten_cons, ih _ _ e', List.take_append_drop]
          · rw [if_neg hc] at h
            cases h

/-- An empty text anywhere in the input makes `Assert(nextLen > 0)` fire:
the whole batching operation fails. -/
theorem createEmbBatchesF_nil_mem (L : Nat) :
    ∀ fuel ts, [] ∈ ts → createEmbBatchesF L fuel ts = none := by
  intro fuel
  induction fuel with
  | zero =>
    intro ts h
    cases ts with
    | nil => cases h
    | cons t rest => simp [createEmbBatchesF]
  | succ fuel ih =>
    intro ts h
    cases ts with
    | nil => cases h
    | cons t rest =>
      simp only [createEmbBatchesF]
      rcases htb : takeBatch L 0 (t :: rest) with _ | g
      · rfl
      · cases g with
        | zero => rfl
        | succ k =>
          have hnotin : ([] : List Char) ∉ (t :: rest).take (k + 1) := fun hmem =>
            ((takeBatch_items L (t :: rest) 0 (k + 1) htb) [] hmem).1 rfl
          have hin : ([] : List Char) ∈ (t :: rest).drop (k + 1) := by
            have hsplit : ([] : List Char) ∈ (t :: rest).take (k + 1) ++ (t :: rest).drop (k + 1) := by
              rw [List.take_append_drop]
              exact h
            rcases List.mem_append.mp hsplit with hmem | hmem
            · exact absurd hmem hnotin
            · exact hmem
          have hrec : createEmbBatchesF L fuel ((t :: rest).drop (k + 1)) = none := ih _ hin
          simp only [List.drop_succ_cons] at hrec
          simp [htb, hrec]

/-- Under the per-item precondition the batcher succeeds and every issued
request is non-empty with total length strictly below the limit. -/
theorem createEmbBatchesF_sound (L : Nat) :
    ∀ fuel ts, PerItemOk L ts → ts.length ≤ fuel →
      ∃ bs, createEmbBatchesF L fuel ts = some bs ∧ bs.flatten = ts ∧
        ∀ b ∈ bs, b ≠ [] ∧ sumLen b < L := by
  intro fuel
  induction fuel with
  | zero =>
    intro ts hok hlen
    cases ts with
    | nil => exact ⟨[], rfl, rfl, by simp⟩
    | cons t rest => simp at hlen
  | succ fuel ih =>
    intro ts hok hlen
    cases ts with
    | nil => exact ⟨[], rfl, rfl, by simp⟩
    | cons t rest =>
      obtain ⟨k, htb⟩ := takeBatch_some L (t :: rest) 0 hok
      have hk1 : 1 ≤ k := takeBatch_first L (t :: rest) (by simp) hok k htb
      obtain ⟨k', rfl⟩ : ∃ k2, k = k2 + 1 := ⟨k - 1, by omega⟩
      have hsum := takeBatch_sum L (t :: rest) 0 k' htb
      have hitems := takeBatch_items L (t :: rest) 0 (k' + 1) htb
      have hcond : (∀ x ∈ (t :: rest).take (k' + 1), x.length ≤ L) ∧
          sumLen ((t :: rest).take (k' + 1)) ≤ L :=
        ⟨fun x hx => (hitems x hx).2, by omega⟩
      have hlendrop : ((t :: rest).drop (k' + 1)).length ≤ fuel := by
        simp only [List.length_drop, List.length_cons]
        simp at hlen
        omega
      have hokdrop : PerItemOk L ((t :: rest).drop (k' + 1)) := fun x hx =>
        hok x (List.mem_of_mem_drop hx)
      obtain ⟨bs', e', hfl, hprops⟩ := ih _ hokdrop hlendrop
      refine ⟨(t :: rest).take (k' + 1) :: bs', ?_, ?_, ?_⟩
      · simp only [createEmbBatchesF, htb]
        rw [if_pos hcond, e']
        rfl
      · simp [List.flatten_cons, hfl]
      · intro b hb
        rcases List.mem_cons.mp hb with hb1 | hb2
        · subst hb1
          refine ⟨?_, by omega⟩
          simp [List.take_succ_cons]
        · exact hprops b hb2

/-- Cutting a prefix off a validly partitioned text list leaves a valid
partition of the suffix using no more parts. -/
theorem validPartition_suffix (L : Nat) :
    ∀ P xs ys, ValidPartition L (xs ++ ys) P →
      ∃ Q, ValidPartition L ys Q ∧ Q.length ≤ P.length := by
  intro P
  induction P with
  | nil =>
    intro xs ys hv
    obtain ⟨hfl, _⟩ := hv
    have hnil : xs = [] ∧ ys = [] := List.append_eq_nil.mp (by simpa using hfl.symm)
    exact ⟨[], ⟨by simp [hnil.2], by simp⟩, by simp⟩
  | cons p P ih =>
    intro xs ys hv
    obtain ⟨hfl, hparts⟩ := hv
    have hflc : p ++ P.flatten = xs ++ ys := by simpa using hfl
    by_cases hle : p.length ≤ xs.length
    · have hPfl : P.flatten = xs.drop p.length ++ ys := by
        have h1 : (p ++ P.flatten).drop p.length = P.flatten := by
          rw [List.drop_append_eq_append_drop]
          simp
        have h2 : (xs ++ ys).drop p.length = xs.drop p.length ++ ys :=
          List.drop_append_of_le_length hle
        rw [hflc, h2] at h1
        exact h1.symm
      obtain ⟨Q, hQv, hQlen⟩ := ih (xs.drop p.length) ys
        ⟨hPfl, fun q hq => hparts q (List.mem_cons_of_mem p hq)⟩
      exact ⟨Q, hQv, by simpa using Nat.le_succ_of_le hQlen⟩
    · push_neg at hle
      have hxsle : xs.length ≤ p.length := Nat.le_of_lt hle
      have hys : ys = p.drop xs.length ++ P.flatten := by
        have h1 : (p ++ P.flatten).drop xs.length = p.drop xs.length ++ P.flatten :=
          List.drop_append_of_le_length hxsle
        have h2 : (xs ++ ys).drop xs.length = ys := by
          rw [List.drop_append_eq_append_drop]
          simp
        rw [hflc, h2] at h1
        exact h1
      refine ⟨p.drop xs.length :: P, ⟨by simp [hys], ?_⟩, by simp⟩
      intro q hq
      rcases List.mem_cons.mp hq with hq1 | hq2
      · subst hq1
        constructor
        · have : (p.drop xs.length).length = p.length - xs.length := List.length_drop ..
          intro hnil
          rw [hnil] at this
          simp at this
          omega
        · have hsplit : sumLen p = sumLen (p.take xs.length) + sumLen (p.drop xs.length) := by
            rw [← sumLen_append, List.take_append_drop]
          have := (hparts p (by simp)).2
          omega
      · exact hparts q (List.mem_cons_of_mem p hq2)

/-- Greedy dominance: the first batch of any valid partition is no larger
than the batch the greedy scan takes. -/
theorem greedy_first_ge (L : Nat) (ts : List (List Char)) (hok : PerItemOk L ts) (g : Nat)
    (htb : takeBatch L 0 ts = some g) (q : List (List Char)) (Q : List (List (List Char)))
    (hv : ValidPartition L ts (q :: Q)) : q.length ≤ g := by
  by_contra hgt
  push_neg at hgt
  obtain ⟨hfl, hparts⟩ := hv
  have hts : ts = q ++ Q.flatten := by simpa using hfl.symm
  have hqlen : q.length ≤ ts.length := by
    rw [hts]
    simp
  rcases takeBatch_max L ts 0 g hok htb with hend | hover
  · omega
  · have htake : ts.take (g + 1) = q.take (g + 1) := by
      rw [hts]
      exact List.take_append_of_le_length (by omega)
    have hsle : sumLen (q.take (g + 1)) ≤ sumLen q := by
      have : sumLen q = sumLen (q.take (g + 1)) + sumLen (q.drop (g + 1)) := by
        rw [← sumLen_append, List.take_append_drop]
      omega
    have hqsum := (hparts q (by simp)).2
    rw [htake] at hover
    omega

/-- Greedy optimality: the batcher issues no more requests than any valid
contiguous partition of the texts. -/
theorem createEmbBatchesF_min (L : Nat) :
    ∀ fuel ts bs, PerItemOk L ts → createEmbBatchesF L fuel ts = some bs →
      ∀ P, ValidPartition L ts P → bs.length ≤ P.length := by
  intro fuel
  induction fuel with
  | zero =>
    intro ts bs hok h P hv
    cases ts with
    | nil =>
      simp [createEmbBatchesF] at h
      simp [h]
    | cons t rest => simp [createEmbBatchesF] at h
  | succ fuel ih =>
    intro ts bs hok h P hv
    cases ts with
    | nil =>
      simp [createEmbBatchesF] at h
      simp [h]
    | cons t rest =>
      simp only [createEmbBatchesF] at h
      rcases htb : takeBatch L 0 (t :: rest) with _ | g
      · simp [htb] at h
      · cases g with
        | zero => simp [htb] at h
        | succ k =>
          simp only [htb] at h
          by_cases hc : (∀ x ∈ (t :: rest).take (k + 1), x.length ≤ L) ∧
              sumLen ((t :: rest).take (k + 1)) ≤ L
          · rw [if_pos hc] at h
            rcases Option.map_eq_some'.mp h with ⟨bs', e', hbs⟩
            subst hbs
            obtain ⟨hfl, hparts⟩ := hv
            cases P with
            | nil => simp at hfl
            | cons q Q =>
              have hq := greedy_first_ge L (t :: rest) hok (k + 1) htb q Q ⟨hfl, hparts⟩
              have hts : t :: rest = q ++ Q.flatten := by simpa using hfl.symm
              have hdrop : (t :: rest).drop (k + 1) = Q.flatten.drop (k + 1 - q.length) := by
                rw [hts, List.drop_append_eq_append_drop, List.drop_eq_nil_of_le hq]
                simp
              have hQv : ValidPartition L
                  (Q.flatten.take (k + 1 - q.length) ++ Q.flatten.drop (k + 1 - q.length)) Q := by
                rw [List.take_append_drop]
                exact ⟨rfl, fun p hp => hparts p (List.mem_cons_of_mem q hp)⟩
              obtain ⟨Q', hQ'v, hQ'len⟩ := validPartition_suffix L Q _ _ hQv
              have hokdrop : PerItemOk L ((t :: rest).drop (k + 1)) := fun x hx =>
                hok x (List.mem_of_mem_drop hx)
              have hrec := ih _ bs' hokdrop e' Q' (by rw [hdrop]; exact hQ'v)
              simp only [List.length_cons]
              omega
          · rw [if_neg hc] at h
            cases h


theorem cnt_nil {α : Type} [DecidableEq α] (a : α) : cnt a [] = 0 := rfl

theorem cnt_cons {α : Type} [DecidableEq α] (a b : α) (l : List α) :
    cnt a (b :: l) = (if b = a then 1 else 0) + cnt a l := rfl

theorem cnt_append {α : Type} [DecidableEq α] (a : α) :
    ∀ l₁ l₂ : List α, cnt a (l₁ ++ l₂) = cnt a l₁ + cnt a l₂ := by
  intro l₁ l₂
  induction l₁ with
  | nil => simp [cnt]
  | cons b l ih =>
    simp only [List.cons_append, cnt_cons, ih]
    omega

/-- Removing the first text-match decrements the multiset of pool texts at
exactly that text. -/
theorem removeFirstChunk_cnt {E : Type} (s : List Char) :
    ∀ (pool pool' : List (Chunk E)), removeFirstChunk s pool = some pool' →
      ∀ str, cnt str (pool.map (fun c => c.text)) =
        cnt str (pool'.map (fun c => c.text)) + (if s = str then 1 else 0) := by
  intro pool
  induction pool with
  | nil => intro pool' h; cases h
  | cons c rest ih =>
    intro pool' h str
    simp only [removeFirstChunk] at h
    by_cases hc : c.text = s
    · rw [if_pos hc] at h
      have hp : pool' = rest := by injection h with h2; exact h2.symm
      subst hp
      by_cases hs : s = str
      · simp only [List.map_cons, cnt_cons, if_pos (hc.trans hs), if_pos hs]
        omega
      · have hct2 : ¬ c.text = str := fun e => hs (hc.symm.trans e)
        simp only [List.map_cons, cnt_cons, if_neg hct2, if_neg hs]
        omega
    · rw [if_neg hc] at h
      rcases Option.map_eq_some'.mp h with ⟨r, er, hr⟩
      subst hr
      have hrec := ih r er str
      by_cases hct : c.text = str
      · simp only [List.map_cons, cnt_cons, if_pos hct]
        omega
      · simp only [List.map_cons, cnt_cons, if_neg hct]
        omega

/-- If the pool holds at least one chunk with text `s`, the removal
succeeds. -/
theorem removeFirstChunk_some {E : Type} (s : List Char) :
    ∀ pool : List (Chunk E), 1 ≤ cnt s (pool.map (fun c => c.text)) →
      ∃ pool', removeFirstChunk s pool = some pool' := by
  intro pool
  induction pool with
  | nil => intro h; simp [cnt] at h
  | cons c rest ih =>
    intro h
    by_cases hc : c.text = s
    · exact ⟨rest, by simp [removeFirstChunk, hc]⟩
    · have h' : 1 ≤ cnt s (rest.map (fun c => c.text)) := by
        simpa [cnt_cons, if_neg hc] using h
      obtain ⟨r, er⟩ := ih h'
      exact ⟨c :: r, by simp [removeFirstChunk, hc, er]⟩

/-- Coverage: every occurrence of a string is accounted for either by a
distinct consumed pool chunk or by the `newChunkStrings` output. -/
theorem matchChunks_cover {E : Type} :
    ∀ (strings : List (List Char)) (pool : List (Chunk E)) (str : List Char),
      cnt str strings ≤ cnt str (pool.map (fun c => c.text)) +
        cnt str (matchChunks strings pool).2 := by
  intro strings
  induction strings with
  | nil =>
    intro pool str
    simp [matchChunks, cnt]
  | cons s rest ih =>
    intro pool str
    rcases hrm : removeFirstChunk s pool with _ | pool'
    · have hrec := ih pool str
      by_cases hs : s = str
      · simp [matchChunks, hrm, cnt_cons, if_pos hs]
        omega
      · simp [matchChunks, hrm, cnt_cons, if_neg hs]
        omega
    · have hcnt := removeFirstChunk_cnt s pool pool' hrm str
      have hrec := ih pool' str
      by_cases hs : s = str
      · rw [if_pos hs] at hcnt
        simp [matchChunks, hrm, cnt_cons, if_pos hs]
        omega
      · rw [if_neg hs] at hcnt
        simp [matchChunks, hrm, cnt_cons, if_neg hs]
        omega

/-- If the pool texts dominate the strings as a multiset, the matching
pass queues nothing for embedding. -/
theorem matchChunks_none {E : Type} :
    ∀ (strings : List (List Char)) (pool : List (Chunk E)),
      (∀ str, cnt str strings ≤ cnt str (pool.map (fun c => c.text))) →
      (matchChunks strings pool).2 = [] := by
  intro strings
  induction strings with
  | nil => intro pool _; rfl
  | cons s rest ih =>
    intro pool hdom
    have hs1 : 1 ≤ cnt s (pool.map (fun c => c.text)) := by
      have := hdom s
      simp [cnt_cons] at this
      omega
    obtain ⟨pool', hrm⟩ := removeFirstChunk_some s pool hs1
    simp only [matchChunks, hrm]
    apply ih
    intro str
    have hcnt := removeFirstChunk_cnt s pool pool' hrm str
    have hd := hdom str
    by_cases hstr : s = str
    · rw [cnt_cons, if_pos hstr] at hd
      rw [if_pos hstr] at hcnt
      omega
    · rw [cnt_cons, if_neg hstr] at hd
      rw [if_neg hstr] at hcnt
      omega

/-- A successful `CreateEmbeddings` returns exactly the oracle embedding of
each input text, in input order. -/
theorem CreateEmbeddings_eq_map {E : Type} (f : List Char → E) (L : Nat)
    (ns : List (List Char)) (embs : List E)
    (h : CreateEmbeddings f L ns = some embs) : embs = ns.map f := by
  unfold CreateEmbeddings createEmbBatches at h
  rcases Option.map_eq_some'.mp h with ⟨bs, e, hg⟩
  have hfl := createEmbBatchesF_flatten L ns.length ns bs e
  subst hg
  rw [← List.map_flatten, hfl]

theorem zipWith_chunk_text {E : Type} (d : String) :
    ∀ (ns : List (List Char)) (embs : List E), embs.length = ns.length →
      (List.zipWith (fun t e => Chunk.mk d t e) ns embs).map (fun c => c.text) = ns := by
  intro ns
  induction ns with
  | nil => intro embs _; simp
  | cons t ts ih =>
    intro embs hlen
    cases embs with
    | nil => simp at hlen
    | cons e es =>
      simp only [List.zipWith_cons_cons, List.map_cons]
      rw [ih es (by simpa using hlen)]

theorem zipWith_chunk_filter {E : Type} (d : String) :
    ∀ (ns : List (List Char)) (embs : List E),
      (List.zipWith (fun t e => Chunk.mk d t e) ns embs).filter
        (fun c => c.docPath = d) = List.zipWith (fun t e => Chunk.mk d t e) ns embs := by
  intro ns
  induction ns with
  | nil => intro embs; simp
  | cons t ts ih =>
    intro embs
    cases embs with
    | nil => simp
    | cons e es =>
      simp only [List.zipWith_cons_cons, List.filter_cons]
      rw [if_pos (by simp)]
      rw [ih es]

/-- Characterization of the `Answer` context loop: the result is the
concatenation of the whole blocks of some prefix of the ranked chunks; the
first chunk is always appended; every earlier stopping check passed; and
if chunks remain unused, the last appended block made the check fail. -/
theorem answerContextLoop_spec (maxSize : Int) :
    ∀ (chunks : List (List Char × List Char)) (acc : List Char),
      ∃ k, k ≤ chunks.length ∧
        answerContextLoop maxSize acc chunks =
          acc ++ ((chunks.take k).map blockOf).flatten ∧
        (chunks ≠ [] → 1 ≤ k) ∧
        (∀ j, 1 ≤ j → j < k →
          (((acc ++ ((chunks.take j).map blockOf).flatten).length +
            promptTmpl.length : Nat) : Int) ≤ maxSize) ∧
        (k < chunks.length →
          maxSize < (((acc ++ ((chunks.take k).map blockOf).flatten).length +
            promptTmpl.length : Nat) : Int)) := by
  intro chunks
  induction chunks with
  | nil =>
    intro acc
    refine ⟨0, le_rfl, by simp [answerContextLoop], by simp, ?_, by simp⟩
    intro j h1 h0
    omega
  | cons c rest ih =>
    intro acc
    by_cases hover : maxSize < (((acc ++ blockOf c).length + promptTmpl.length : Nat) : Int)
    · refine ⟨1, by simp, ?_, fun _ => le_rfl, ?_, ?_⟩
      · have hl : answerContextLoop maxSize acc (c :: rest) = acc ++ blockOf c := by
          simp only [answerContextLoop]
          rw [if_pos (by push_cast at hover; omega)]
        rw [hl]
        simp
      · intro j h1 hj
        omega
      · intro _
        simp only [List.take_succ_cons, List.take_zero, List.map_cons, List.map_nil,
          List.flatten_cons, List.flatten_nil, List.append_nil]
        exact hover
    · push_neg at hover
      obtain ⟨k', hk'le, heq, hne, hj, hov⟩ := ih (acc ++ blockOf c)
      refine ⟨k' + 1, by simpa using hk'le, ?_, fun _ => by omega, ?_, ?_⟩
      · have hl : answerContextLoop maxSize acc (c :: rest) =
            answerContextLoop maxSize (acc ++ blockOf c) rest := by
          simp only [answerContextLoop]
          rw [if_neg (by push_cast at hover; omega)]
        rw [hl, heq]
        simp [List.take_succ_cons, List.flatten_cons]
      · intro j h1 hjlt
        cases j with
        | zero => omega
        | succ j' =>
          cases Nat.eq_zero_or_pos j' with
          | inl hz =>
            subst hz
            simp only [List.take_succ_cons, List.take_zero, List.map_cons, List.map_nil,
              List.flatten_cons, List.flatten_nil, List.append_nil]
            exact hover
          | inr hpos =>
            have := hj j' hpos (by omega)
            simp only [List.take_succ_cons, List.map_cons, List.flatten_cons,
              List.length_append] at this ⊢
            push_cast at this ⊢
            omega
      · intro hlt
        have hk'lt : k' < rest.length := by simpa using hlt
        have := hov hk'lt
        simp only [List.take_succ_cons, List.map_cons, List.flatten_cons,
          List.length_append] at this ⊢
        push_cast at this ⊢
        omega

/-- GC keeps a chunk exactly when it is present and its document is still
tracked. -/
theorem mem_gcChunks {E : Type} (docs : List String) (chunks : List (Chunk E)) (c : Chunk E) :
    c ∈ gcChunks docs chunks ↔ c ∈ chunks ∧ c.docPath ∈ docs := by
  simp [gcChunks, referencedBy, List.mem_filter, List.any_eq_true]

/-- On a duplicate-free document list, forgetting `p` removes exactly
`p`. -/
theorem mem_forgetDocument (p x : String) :
    ∀ docs : List String, docs.Nodup →
      (x ∈ forgetDocument docs p ↔ x ∈ docs ∧ x ≠ p) := by
  intro docs
  induction docs with
  | nil => simp [forgetDocument]
  | cons d rest ih =>
    intro hnd
    obtain ⟨hdnotin, hndrest⟩ := List.nodup_cons.mp hnd
    by_cases hd : d = p
    · subst hd
      rw [forgetDocument, if_pos rfl]
      constructor
      · intro hx
        refine ⟨List.mem_cons_of_mem d hx, ?_⟩
        intro he
        exact hdnotin (he ▸ hx)
      · rintro ⟨hx, hne⟩
        rcases List.mem_cons.mp hx with h1 | h2
        · exact absurd h1 hne
        · exact h2
    · rw [forgetDocument, if_neg hd]
      rw [List.mem_cons, List.mem_cons, ih hndrest]
      constructor
      · rintro (rfl | ⟨hx, hne⟩)
        · exact ⟨Or.inl rfl, hd⟩
        · exact ⟨Or.inr hx, hne⟩
      · rintro ⟨rfl | hx, hne⟩
        · exact Or.inl rfl
        · exact Or.inr ⟨hx, hne⟩

/-- After forgetting `D` from a duplicate-free document list, GC filters
out exactly the chunks of `D` (assuming every chunk referenced a tracked
document, the data-model invariant). -/
theorem gcChunks_forget {E : Type} (docs : List String) (chunks : List (Chunk E)) (D : String)
    (hnd : docs.Nodup) (htrack : ∀ c ∈ chunks, c.docPath ∈ docs) :
    gcChunks (forgetDocument docs D) chunks =
      chunks.filter (fun c => c.docPath ≠ D) := by
  unfold gcChunks
  apply List.filter_congr
  intro c hc
  have hcd := htrack c hc
  by_cases hD : c.docPath = D
  · have hnotmem : c.docPath ∉ forgetDocument docs D := by
      rw [mem_forgetDocument D c.docPath docs hnd]
      simp [hD]
    have h1 : referencedBy (forgetDocument docs D) c = false := by
      rw [referencedBy, List.any_eq_false]
      intro d hd
      simp only [decide_eq_true_eq]
      intro he
      exact hnotmem (he ▸ hd)
    rw [h1, hD]
    simp
  · have hmem : c.docPath ∈ forgetDocument docs D :=
      (mem_forgetDocument D c.docPath docs hnd).mpr ⟨hcd, hD⟩
    have h1 : referencedBy (forgetDocument docs D) c = true := by
      rw [referencedBy, List.any_eq_true]
      exact ⟨c.docPath, hmem, by simp⟩
    rw [h1]
    simp [hD]

/-! ## Claim theorems -/

/-- C1: the claim (and §4.2 of the spec) requires that a text whose length
exactly equals the per-item embedding limit be accepted as the sole member
of its own batch, with the packing loop's internal assertions unreachable.
The code violates this: with limit 5 and the single per-item-valid text
"xxxxx" (length exactly 5), the scan closes the batch before its first
item (`j` ends at `i - 1`) and `Assert(j >= i)` fires, so the whole
operation fails (modelled as `none`). -/
theorem c1_lone_max_item_asserts :
    (List.replicate 5 'x').length ≤ 5 ∧
    CreateEmbeddings exF 5 [List.replicate 5 'x'] = none := by decide

/-- C2 counterexample: with `maxChunkLen = 6` and an empty question the
byte budget is `6 / 2 - 0 = 3`, yet `Answer` appends the whole 7-byte
block `"d:\n\nx\n\n"` before checking, so the assembled context exceeds
the budget — refuting "stops before appending any block that would push
the accumulated context size over the budget". -/
theorem c2_counterexample :
    answerContext 6 [] [(['d'], ['x'])] = ['d', ':', '\n', '\n', 'x', '\n', '\n'] ∧
    ((6 / 2 : Nat) : Int) - (([] : List Char).length : Int) <
      ((answerContext 6 [] [(['d'], ['x'])]).length : Int) := by decide

/-- C2 amended: the assembler appends whole labeled blocks in ranked
order; it stops *after* appending the first block at which the accumulated
context length plus the prompt-template length exceeds the budget
`maxChunkLen/2 - |question|`.  Hence chunks are never truncated, every
earlier prefix of blocks satisfied the budget check, and the context can
exceed the budget by at most the final appended block. -/
theorem c2_amended_assembler (maxChunkLen : Nat) (question : List Char)
    (chunks : List (List Char × List Char)) :
    ∃ k, k ≤ chunks.length ∧
      answerContext maxChunkLen question chunks = ((chunks.take k).map blockOf).flatten ∧
      (chunks ≠ [] → 1 ≤ k) ∧
      (∀ j, 1 ≤ j → j < k →
        (((((chunks.take j).map blockOf).flatten).length + promptTmpl.length : Nat) : Int) ≤
          ((maxChunkLen / 2 : Nat) : Int) - (question.length : Int)) ∧
      (k < chunks.length →
        ((maxChunkLen / 2 : Nat) : Int) - (question.length : Int) <
          (((((chunks.take k).map blockOf).flatten).length + promptTmpl.length : Nat) : Int)) := by
  obtain ⟨k, hk, heq, hne, hj, hov⟩ := answerContextLoop_spec
    (((maxChunkLen / 2 : Nat) : Int) - (question.length : Int)) chunks []
  refine ⟨k, hk, ?_, hne, ?_, ?_⟩
  · unfold answerContext
    rw [heq]
    simp
  · intro j h1 hj2
    have := hj j h1 hj2
    simpa using this
  · intro hlt
    have := hov hlt
    simpa using this

/-- C3: the spec's contract (return 0 on mismatched vector lengths, never
fail) holds for v3/util.go `similarity`, but grokker.go `Similarity` — the
one `SimilarChunks` uses for ranking — has no length guard: on `a = [1,0]`,
`b = [1]` it reads `b[1]` out of range and panics (modelled `none`), so
ranking with a longer query embedding crashes instead of returning 0. -/
theorem c3_similarity_mismatch : SimilarityGo [1, 0] [1] = none ∧
    similarityV3 [1, 0] [1] = 0 ∧
    ([1, 0] : List Float).length ≠ ([1] : List Float).length :=
  ⟨rfl, rfl, by decide⟩

/-- C4 counterexample: the paragraph "abcd" (length 4) exceeds
`maxLen = 3`, but the chunker hard-splits it into slices of length
`maxLen - 1 = 2` ("ab", "cd"), not slices of exactly `maxLen` as the claim
states. -/
theorem c4_counterexample :
    chunksGo 3 ['a', 'b', 'c', 'd'] = some [['a', 'b'], ['c', 'd']] ∧
    3 < (['a', 'b', 'c', 'd'] : List Char).length ∧
    (['a', 'b'] : List Char).length ≠ 3 := by decide

/-- C4 amended: for `maxLen ≥ 2` (at `maxLen = 1` the splitting loop never
terminates), every piece is non-empty of length at most `maxLen - 1`, every
piece is a contiguous slice of a single paragraph (no paragraph boundary
spans two pieces), and a paragraph is hard-split into consecutive
non-overlapping slices of exactly `maxLen - 1` characters each (their
concatenation restores the paragraph) with a shorter final remainder. -/
theorem c4_amended_chunk (maxLen : Nat) (txt : List Char) (h2 : 2 ≤ maxLen) :
    ∃ pieces, chunksGo maxLen txt = some pieces ∧
      (∀ c ∈ pieces, c ≠ [] ∧ c.length ≤ maxLen - 1) ∧
      (∀ c ∈ pieces, ∃ p, p ∈ splitOnNN txt ∧ ∃ pre post, pre ++ c ++ post = p) ∧
      ∀ p ∈ splitOnNN txt, ∃ l, splitParaFuel maxLen p.length p = some l ∧
        l.flatten = p ∧
        ∀ i, ∀ hi : i + 1 < l.length, (l.get ⟨i, Nat.lt_of_succ_lt hi⟩).length = maxLen - 1 := by
  obtain ⟨pieces, he, hp⟩ := chunksGo_spec maxLen txt h2
  refine ⟨pieces, he, fun c hc => (hp c hc).1, fun c hc => (hp c hc).2, ?_⟩
  intro p hpmem
  obtain ⟨l, el, hfl, _, hidx⟩ := splitParaFuel_spec maxLen h2 p.length p le_rfl
  exact ⟨l, el, hfl, hidx⟩

/-- C4 witness: the amended theorem evaluated at `maxLen = 4` on the
single-paragraph text "abcdef". -/
theorem c4_witness :
    2 ≤ 4 ∧
    (∃ pieces, chunksGo 4 ['a', 'b', 'c', 'd', 'e', 'f'] = some pieces ∧
      (∀ c ∈ pieces, c ≠ [] ∧ c.length ≤ 4 - 1) ∧
      (∀ c ∈ pieces, ∃ p, p ∈ splitOnNN ['a', 'b', 'c', 'd', 'e', 'f'] ∧
        ∃ pre post, pre ++ c ++ post = p) ∧
      ∀ p ∈ splitOnNN ['a', 'b', 'c', 'd', 'e', 'f'],
        ∃ l, splitParaFuel 4 p.length p = some l ∧
          l.flatten = p ∧
          ∀ i, ∀ hi : i + 1 < l.length, (l.get ⟨i, Nat.lt_of_succ_lt hi⟩).length = 4 - 1) :=
  ⟨by decide, c4_amended_chunk 4 ['a', 'b', 'c', 'd', 'e', 'f'] (by decide)⟩

/-- C8: a snapshot whose version tag is the empty string is treated as
version "0.1.0"; whenever the effective loaded version differs from the
running version and migration was not requested, loading takes the fatal
user-facing exit path instead of proceeding. -/
theorem c8_load_version (sv : String)
    (h : (if sv = "" then "0.1.0" else sv) ≠ currentVersion) :
    load sv false = .fatalExit (if sv = "" then "0.1.0" else sv) ∧
    load "" false = .fatalExit "0.1.0" ∧
    load "" true = .ok "0.1.0" := by
  refine ⟨?_, by rfl, by rfl⟩
  unfold load
  simp only [Bool.false_eq_true, if_false]
  rw [if_pos h]

/-- C8 witness: loading version "0.9.0" (and "") without migration exits
fatally. -/
theorem c8_load_version_witness :
    ((if ("0.9.0" : String) = "" then "0.1.0" else "0.9.0") ≠ currentVersion) ∧
    (load "0.9.0" false = .fatalExit (if ("0.9.0" : String) = "" then "0.1.0" else "0.9.0") ∧
     load "" false = .fatalExit "0.1.0" ∧
     load "" true = .ok "0.1.0") :=
  ⟨by decide, c8_load_version "0.9.0" (by decide)⟩

/-- C9: switching to a registered model with a smaller token limit fails
with an explicit error and leaves the state (active model and derived
length limits) untouched; switching to one with an equal or larger token
limit succeeds and re-derives the length limits via `initModel`. -/
theorem c9_upgrade_model (s : GState) (req resName curName : String) (tl oldTl : Nat)
    (hreq : findModel req = some (resName, tl))
    (hcur : findModel s.model = some (curName, oldTl)) :
    (tl < oldTl → upgradeModel s req = (s, some "cannot downgrade model")) ∧
    (oldTl ≤ tl → upgradeModel s req = (initModelState resName tl, none)) := by
  unfold upgradeModel
  simp only [hreq, hcur]
  constructor
  · intro hlt
    rw [if_pos hlt]
  · intro hge
    rw [if_neg (Nat.not_lt.mpr hge)]

/-- C9 witness: from active model gpt-4 (limit 8192), downgrading to
gpt-3.5-turbo (4096) errors and keeps the state; upgrading to gpt-4-32k
(32768) succeeds and re-derives the limits. -/
theorem c9_upgrade_model_witness :
    findModel "gpt-3.5-turbo" = some ("gpt-3.5-turbo", 4096) ∧
    findModel (initModelState "gpt-4" 8192).model = some ("gpt-4", 8192) ∧
    upgradeModel (initModelState "gpt-4" 8192) "gpt-3.5-turbo" =
      (initModelState "gpt-4" 8192, some "cannot downgrade model") ∧
    upgradeModel (initModelState "gpt-4" 8192) "gpt-4-32k" =
      (initModelState "gpt-4-32k" 32768, none) := by
  refine ⟨by decide, by decide, ?_, ?_⟩
  · exact (c9_upgrade_model (initModelState "gpt-4" 8192) "gpt-3.5-turbo"
      "gpt-3.5-turbo" "gpt-4" 4096 8192 (by decide) (by decide)).1 (by decide)
  · exact (c9_upgrade_model (initModelState "gpt-4" 8192) "gpt-4-32k"
      "gpt-4-32k" "gpt-4" 32768 8192 (by decide) (by decide)).2 (by decide)

/-- C5 counterexample: a text of length exactly the limit is per-item-valid
("within the per-item limit", and the code's own per-item assert accepts
it), yet the batcher fails outright instead of returning one embedding per
input text. -/
theorem c5_counterexample :
    (['x', 'x', 'x', 'x'] : List Char).length ≤ 4 ∧
    CreateEmbeddings exF 4 [['x', 'x', 'x', 'x']] = none := by decide

/-- C5 amended: for texts that are each non-empty and strictly below the
provider limit, the batcher issues requests whose texts concatenate back
to the input, each request non-empty with total length strictly below the
limit, using the minimum possible number of requests among all such
contiguous packings, and returns exactly one embedding per input text in
input order. (A text of length exactly the limit, or an empty text, makes
the operation fail by assertion — see C1 and C10.) -/
theorem c5_amended_batching {E : Type} (f : List Char → E) (L : Nat)
    (texts : List (List Char)) (hok : PerItemOk L texts) :
    ∃ bs, createEmbBatches L texts = some bs ∧
      (∀ b ∈ bs, b ≠ [] ∧ sumLen b < L) ∧
      (∀ P, ValidPartition L texts P → bs.length ≤ P.length) ∧
      CreateEmbeddings f L texts = some (texts.map f) := by
  obtain ⟨bs, he, hfl, hprops⟩ := createEmbBatchesF_sound L texts.length texts hok le_rfl
  refine ⟨bs, he, hprops, ?_, ?_⟩
  · intro P hP
    exact createEmbBatchesF_min L texts.length texts bs hok he P hP
  · unfold CreateEmbeddings createEmbBatches
    rw [he]
    simp only [Option.map_some']
    rw [← List.map_flatten, hfl]

/-- C5 witness: the amended theorem at limit 3 on texts "a","b","c"
(greedily packed as two requests [["a","b"],["c"]]). -/
theorem c5_witness :
    (∀ t ∈ ([[ 'a' ], ['b'], ['c']] : List (List Char)), 0 < t.length ∧ t.length < 3) ∧
    (∃ bs, createEmbBatches 3 [['a'], ['b'], ['c']] = some bs ∧
      (∀ b ∈ bs, b ≠ [] ∧ sumLen b < 3) ∧
      (∀ P, ValidPartition 3 [['a'], ['b'], ['c']] P → bs.length ≤ P.length) ∧
      CreateEmbeddings exF 3 [['a'], ['b'], ['c']] =
        some ([['a'], ['b'], ['c']].map exF)) := by
  have hok : ∀ t ∈ ([['a'], ['b'], ['c']] : List (List Char)),
      0 < t.length ∧ t.length < 3 := by decide
  exact ⟨hok, c5_amended_batching exF 3 [['a'], ['b'], ['c']] hok⟩

/-- C7: GC retains exactly the chunks whose referenced document path is in
the current document list; and on a duplicate-free document list where
every chunk references a tracked document, forgetting `D` and then running
GC removes exactly the chunks of `D` and none of the others. -/
theorem c7_gc_exact {E : Type} (docs : List String) (chunks : List (Chunk E)) (D : String) :
    (∀ c : Chunk E, c ∈ gcChunks docs chunks ↔ c ∈ chunks ∧ c.docPath ∈ docs) ∧
    (docs.Nodup → (∀ c ∈ chunks, c.docPath ∈ docs) →
      gcChunks (forgetDocument docs D) chunks =
        chunks.filter (fun c => c.docPath ≠ D)) :=
  ⟨fun c => mem_gcChunks docs chunks c,
   fun hnd htrack => gcChunks_forget docs chunks D hnd htrack⟩

/-- C7 witness: forgetting "a" from documents ["a","b"] and GC-ing removes
exactly the chunk of "a". -/
theorem c7_witness :
    (["a", "b"] : List String).Nodup ∧
    (∀ c ∈ [Chunk.mk "a" ['x'] (0 : Nat), Chunk.mk "b" ['y'] 1],
      c.docPath ∈ (["a", "b"] : List String)) ∧
    gcChunks (forgetDocument ["a", "b"] "a")
        [Chunk.mk "a" ['x'] (0 : Nat), Chunk.mk "b" ['y'] 1] =
      [Chunk.mk "a" ['x'] (0 : Nat), Chunk.mk "b" ['y'] 1].filter
        (fun c => c.docPath ≠ "a") := by
  refine ⟨by decide, by decide, ?_⟩
  exact (c7_gc_exact ["a", "b"]
    [Chunk.mk "a" ['x'] (0 : Nat), Chunk.mk "b" ['y'] 1] "a").2 (by decide) (by decide)

/-- C10 counterexample: `maxLen = 1` is positive, but on the non-empty
paragraph "a" one iteration of the splitting loop appends the *empty*
chunk (`paragraph[:0]`) and leaves the paragraph unchanged, so the loop
never terminates — no fuel ever suffices and the chunker never returns. -/
theorem c10_counterexample :
    chunkLoopStep 1 ['a'] = ([([] : List Char)], ['a']) ∧
    splitParaFuel 1 1 ['a'] = none ∧
    chunksGo 1 ['a'] = none := by decide

/-- C10 amended: for `maxLen ≥ 2` every chunk the chunker returns is
non-empty (blank-line runs produce no empty chunks); and the batcher
fails its `Assert(nextLen > 0)` — the whole operation aborts rather than
returning an error value — whenever any input text is empty. -/
theorem c10_amended_nonempty :
    (∀ maxLen txt pieces, 2 ≤ maxLen → chunksGo maxLen txt = some pieces →
      ∀ c ∈ pieces, c ≠ []) ∧
    (∀ (E : Type) (f : List Char → E) (L : Nat) (ts : List (List Char)),
      [] ∈ ts → CreateEmbeddings f L ts = none) := by
  constructor
  · intro maxLen txt pieces h2 he c hc
    obtain ⟨pieces', he', hp⟩ := chunksGo_spec maxLen txt h2
    have hpe : pieces' = pieces := by
      have := he'.symm.trans he
      injection this
    exact (hp c (hpe ▸ hc)).1.1
  · intro E f L ts hmem
    unfold CreateEmbeddings createEmbBatches
    rw [createEmbBatchesF_nil_mem L ts.length ts hmem]
    rfl

/-- C10 witness: the non-emptiness part at `maxLen = 2` on text "a", and
the batcher aborting on the singleton empty text. -/
theorem c10_witness :
    (2 ≤ 2 ∧ chunksGo 2 ['a'] = some [['a']] ∧
      (∀ c ∈ [(['a'] : List Char)], c ≠ [])) ∧
    (([] : List Char) ∈ [([] : List Char)] ∧
      CreateEmbeddings exF 5 [[]] = none) := by
  refine ⟨⟨by decide, by decide, ?_⟩, ⟨by decide, ?_⟩⟩
  · exact c10_amended_nonempty.1 2 ['a'] [['a']] (by decide) (by decide)
  · exact c10_amended_nonempty.2 Nat exF 5 [[]] (by decide)

/-- C6: `UpdateDocument` returns true iff at least one new chunk was
created (the state grows by exactly the new chunks); and re-running it
with the same content leaves the chunk list unchanged, reports
`changed = false`, and in particular keeps every existing chunk (and its
embedding) untouched. -/
theorem c6_update_idempotent {E : Type} (f : List Char → E) (L : Nat) (d : String)
    (content : List Char) (s : List (Chunk E)) (u : Bool) (s' : List (Chunk E))
    (h : updateDocument f L d content s = some (u, s')) :
    (u = true ↔ s.length < s'.length) ∧
    updateDocument f L d content s' = some (false, s') := by
  rcases hcg : chunksGo L content with _ | strings
  · rw [updateDocument.eq_def, hcg] at h
    exact Option.noConfusion h
  · simp only [updateDocument, hcg] at h
    generalize hpool : s.filter (fun c => c.docPath = d) = pool at h
    generalize hns : (matchChunks strings pool).2 = ns at h
    rcases hce : CreateEmbeddings f L ns with _ | embs
    · rw [hce] at h
      exact Option.noConfusion h
    · rw [hce, Option.some.injEq, Prod.mk.injEq] at h
      obtain ⟨hu, hs'⟩ := h
      have hemb : embs = ns.map f := CreateEmbeddings_eq_map f L ns embs hce
      have hzlen : (List.zipWith (fun t e => Chunk.mk d t e) ns embs).length = ns.length := by
        rw [hemb, List.length_zipWith, List.length_map, Nat.min_self]
      constructor
      · rw [← hu, ← hs', List.length_append, hzlen]
        cases ns with
        | nil => simp
        | cons a l => simp
      · subst hs'
        simp only [updateDocument, hcg]
        have hfilter : (s ++ List.zipWith (fun t e => Chunk.mk d t e) ns embs).filter
            (fun c => c.docPath = d) =
            pool ++ List.zipWith (fun t e => Chunk.mk d t e) ns embs := by
          rw [List.filter_append, hpool, zipWith_chunk_filter]
        rw [hfilter]
        have htext : (List.zipWith (fun t e => Chunk.mk d t e) ns embs).map
            (fun c => c.text) = ns :=
          zipWith_chunk_text d ns embs (by rw [hemb, List.length_map])
        have hdom : ∀ str, cnt str strings ≤
            cnt str ((pool ++ List.zipWith (fun t e => Chunk.mk d t e) ns embs).map
              (fun c => c.text)) := by
          intro str
          rw [List.map_append, cnt_append, htext]
          have hcov := matchChunks_cover strings pool str
          rw [hns] at hcov
          exact hcov
        have hmz : (matchChunks strings
            (pool ++ List.zipWith (fun t e => Chunk.mk d t e) ns embs)).2 = [] :=
          matchChunks_none strings _ hdom
        rw [hmz]
        have hce0 : CreateEmbeddings f L ([] : List (List Char)) = some [] := rfl
        rw [hce0]
        simp

/-- C6 witness: a fresh document "doc" with content "ab" creates one chunk
and reports true; the immediate second call reports false and leaves the
single chunk (with its embedding) unchanged. -/
theorem c6_witness :
    updateDocument exF 5 "doc" ['a', 'b'] [] =
      some (true, [Chunk.mk "doc" ['a', 'b'] 2]) ∧
    ((true = true) ↔ (([] : List (Chunk Nat)).length < [Chunk.mk "doc" ['a', 'b'] 2].length)) ∧
    updateDocument exF 5 "doc" ['a', 'b'] [Chunk.mk "doc" ['a', 'b'] 2] =
      some (false, [Chunk.mk "doc" ['a', 'b'] 2]) := by
  have h1 : updateDocument exF 5 "doc" ['a', 'b'] [] =
      some (true, [Chunk.mk "doc" ['a', 'b'] 2]) := by decide
  have h2 := c6_update_idempotent exF 5 "doc" ['a', 'b'] [] true
    [Chunk.mk "doc" ['a', 'b'] 2] h1
  exact ⟨h1, h2.1, h2.2⟩

end Grokker
